import Mathlib

/-!
Shallow embedding of `src/IntrusiveSortedDeque.h` (class `Utils::InstrusiveSortedDeque`,
a `std::deque<T>` wrapper with in-place tombstone deletion, edge compaction,
binary-search lookup, quick keys and filtered iteration), together with proofs
about its stated properties.

Modelling conventions:
* The element type `T` is modelled by `Value`: a sort key (`GetKey`, an `Int`,
  standing for the user-supplied totally ordered `KeyType`) and the intrusive
  deleted flag (`IsDeleted` / `Remove`).
* The underlying `std::deque<T>` is modelled by a `List Value` (the physical
  store, in physical order); physical iterators are modelled by their offset
  from `begin()`, so `end()` is the offset `store.length`.
* A `boost::filter_iterator` over the store is represented by the physical
  offset of its base iterator *after* the construction-time advance past
  records failing the predicate; it equals `end()` exactly when that offset
  is `store.length`.
* `m_nMarkedAsErased` is the C++ `size_type` counter; `Nat` subtraction models
  its decrements (the decrements only happen when the counter is positive in
  any state satisfying the container invariant, so no wrap-around occurs
  there).
* Operations whose C++ behaviour is undefined on some inputs (dereferencing an
  out-of-range iterator) return `Option`, with `none` marking the undefined
  case; `assert`s are modelled as explicit contract predicates, not as part of
  the data transformation (they do not mutate state).
-/

/-- The intrusive element type `T`: carries the user key and the deleted
(tombstone) flag, as required by the capability contract documented at the
top of the header. -/
structure Value where
  key : Int
  deleted : Bool
deriving DecidableEq

/-- Embeds `T::GetKey() const`. -/
def Value.GetKey (v : Value) : Int := v.key

/-- Embeds `T::IsDeleted() const`. -/
def Value.IsDeleted (v : Value) : Bool := v.deleted

/-- Embeds `T::Remove()`: designates a value as deleted (in-place mutation modelled
functionally). -/
def Value.Remove (v : Value) : Value := { v with deleted := true }

/-- Embeds `FilterPredicate(const T& value) { return ! value.IsDeleted(); }` -/
def FilterPredicate (v : Value) : Bool := !v.IsDeleted

/-- Offset of the first value satisfying `FilterPredicate` (i.e. the first
live value) in a list; the list length if there is none.  Used to model the
construction-time advance of `boost::filter_iterator`. -/
def firstLiveOffset : List Value → Nat
  | [] => 0
  | v :: rest => if FilterPredicate v then 0 else firstLiveOffset rest + 1

/-- Embeds `MakeFilteredIter(thisPtr, baseIter)`: wraps a base iterator (offset `i`
into the store `l`, with `i ≤ l.length`) into a filter iterator whose bound is
`StdDeque::end()`.  `boost::make_filter_iterator` advances the base iterator
past values failing the predicate upon construction; the model returns the
advanced physical offset. -/
def MakeFilteredIter (l : List Value) (i : Nat) : Nat :=
  i + firstLiveOffset (l.drop i)

/-- Embeds `DoFindUnchecked(beginIter, endIter, k)`: the source calls
`std::lower_bound(beginIter, endIter, k, FindComp)` with
`FindComp = [](const T& value, KeyType k) { return value.GetKey() < k; }`.
This embeds the result specified by the C++ standard for `std::lower_bound`:
the first position in the range whose element does not satisfy
`value.GetKey() < k` (the ranges this container searches are sorted by key,
hence partitioned as the standard requires).  The result is the offset from
`beginIter`. -/
def DoFindUnchecked : List Value → Int → Nat
  | [], _ => 0
  | v :: rest, k => if v.GetKey < k then DoFindUnchecked rest k + 1 else 0

/-- Embeds `DoFind(thisPtr, result, beginIter, endIter, k)` at its call sites, where
the range is always the whole store: if the store is non-empty and
`k <= back().GetKey()`, run `DoFindUnchecked` over the store and succeed iff
the found position's key equals `k` and the position is not `end()`
(`some r` models `return true` with `result = r`; `none` models
`result = end(); return false`). -/
def DoFind (l : List Value) (k : Int) : Option Nat :=
  match l.getLast? with
  | none => none
  | some b =>
    if k ≤ b.GetKey then
      match l[DoFindUnchecked l k]? with
      | some v => if v.GetKey = k then some (DoFindUnchecked l k) else none
      | none => none
    else none

/-- Embeds `quick_key_type`: a thin wrapper around an `int` index of the underlying
deque; `INVALID_INDEX = -1`, `MIN_VALID_INDEX = 0`. -/
structure quick_key_type where
  m_index : Int
deriving DecidableEq

/-- The default-constructed `quick_key_type()`: wraps `INVALID_INDEX`. -/
def quick_key_type.invalid : quick_key_type := ⟨-1⟩

/-- Embeds `quick_key_type::is_valid() const { return m_index >= MIN_VALID_INDEX; }` -/
def quick_key_type.is_valid (q : quick_key_type) : Bool := decide (0 ≤ q.m_index)

/-- Embeds `quick_key_type::is_front() const { return m_index == MIN_VALID_INDEX; }` -/
def quick_key_type.is_front (q : quick_key_type) : Bool := decide (q.m_index = 0)

/-- Embeds `quick_key_type::operator==(quick_key_type other)`:
`return other.m_index == m_index;`. -/
def quick_key_type.eqOp (q other : quick_key_type) : Bool :=
  decide (other.m_index = q.m_index)

/-- Embeds `quick_key_type::operator<(quick_key_type other)`:
`return other.m_index < m_index;`. -/
def quick_key_type.ltOp (q other : quick_key_type) : Bool :=
  decide (other.m_index < q.m_index)

/-- The container: the underlying `std::deque<T>` contents plus the
`m_nMarkedAsErased` counter. -/
structure InstrusiveSortedDeque where
  store : List Value
  m_nMarkedAsErased : Nat
deriving DecidableEq

namespace InstrusiveSortedDeque

/-- Embeds `capacity()`: the size of the underlying deque (`StdDeque::size()`). -/
def capacity (s : InstrusiveSortedDeque) : Nat := s.store.length

/-- Embeds `size()`: logical size.  Returns `capacity()` when `capacity() <= 1`,
otherwise the `ssize_t` value `capacity() - m_nMarkedAsErased` (computed in
`Int`; the C++ converts it back to `size_type` on return, which is
value-preserving for the non-negative values the asserted invariant
guarantees). -/
def size (s : InstrusiveSortedDeque) : Int :=
  if s.capacity ≤ 1 then (s.capacity : Int)
  else (s.capacity : Int) - (s.m_nMarkedAsErased : Int)

/-- Embeds `find(key_type k)`: `DoFind` over the whole store, the resulting raw
iterator wrapped by `MakeFilteredIter` (on failure `DoFind` sets the result
to `StdDeque::end()`).  The returned value is the filtered iterator's
physical offset; it denotes the end sentinel iff it equals `store.length`. -/
def find (s : InstrusiveSortedDeque) (k : Int) : Nat :=
  match DoFind s.store k with
  | some i => MakeFilteredIter s.store i
  | none => MakeFilteredIter s.store s.store.length

/-- Embeds `find_front(key_type userKey)`: if non-empty and the front's key matches,
return `quick_key_type(MIN_VALID_INDEX)` without searching; otherwise fall
back to `DoFind` and wrap the found offset (`it - cbegin()`), or return the
invalid quick key. -/
def find_front (s : InstrusiveSortedDeque) (userKey : Int) : quick_key_type :=
  match s.store.head? with
  | none => quick_key_type.invalid
  | some f =>
    if f.GetKey = userKey then ⟨0⟩
    else
      match DoFind s.store userKey with
      | some i => ⟨(i : Int)⟩
      | none => quick_key_type.invalid

end InstrusiveSortedDeque

/-- One pass of the `TrimFront` loop body, shared with `TrimBack` (which runs
it on the reversed store): pops values while the front `IsDeleted()`,
returning the remaining list together with the number of pops (each pop
decrements `m_nMarkedAsErased` once). -/
def trimCount : List Value → List Value × Nat
  | [] => ([], 0)
  | v :: rest =>
    if v.IsDeleted then
      let p := trimCount rest
      (p.1, p.2 + 1)
    else (v :: rest, 0)

namespace InstrusiveSortedDeque

/-- Embeds `TrimFront()`: `while (!empty() && front().IsDeleted()) { pop_front(); --m_nMarkedAsErased; }` -/
def TrimFront (s : InstrusiveSortedDeque) : InstrusiveSortedDeque :=
  let p := trimCount s.store
  ⟨p.1, s.m_nMarkedAsErased - p.2⟩

/-- Embeds `TrimBack()`: `while (!empty() && back().IsDeleted()) { pop_back(); --m_nMarkedAsErased; }`
(modelled by trimming the reversed store). -/
def TrimBack (s : InstrusiveSortedDeque) : InstrusiveSortedDeque :=
  let p := trimCount s.store.reverse
  ⟨p.1.reverse, s.m_nMarkedAsErased - p.2⟩

/-- The private `erase(StdDeque::iterator it)`, with the iterator given as the
physical offset `i`: if the target is live, `Remove()` it, increment
`m_nMarkedAsErased`, run `TrimFront(); TrimBack();` and return `true`;
if already deleted return `false` without mutation.  The `i ≥ store.length`
case (an invalid iterator, whose dereference is undefined behaviour in C++)
is returned unchanged with `false`; every in-repository caller passes a valid
iterator. -/
def eraseIter (s : InstrusiveSortedDeque) (i : Nat) : Bool × InstrusiveSortedDeque :=
  match s.store[i]? with
  | none => (false, s)
  | some v =>
    if v.IsDeleted then (false, s)
    else
      (true, TrimBack (TrimFront ⟨s.store.set i v.Remove, s.m_nMarkedAsErased + 1⟩))

/-- Embeds `erase(key_type k)`: `DoFind` then the iterator `erase`; `false` if the
key was not found. -/
def eraseKey (s : InstrusiveSortedDeque) (k : Int) : Bool × InstrusiveSortedDeque :=
  match DoFind s.store k with
  | some i => eraseIter s i
  | none => (false, s)

/-- Embeds `erase(quick_key_type k)`: `erase(StdDeque::begin() + k.m_index)` with no
validation of `k`.  When `m_index` is negative or at/past `capacity()`, the
dereference `it->IsDeleted()` inside the iterator `erase` is undefined
behaviour, modelled as `none`. -/
def eraseQuickKey (s : InstrusiveSortedDeque) (qk : quick_key_type) :
    Option (Bool × InstrusiveSortedDeque) :=
  if 0 ≤ qk.m_index ∧ qk.m_index < (s.store.length : Int) then
    some (eraseIter s qk.m_index.toNat)
  else none

/-- Embeds `pop_front()`: asserts non-empty with a live front (contract; see
`Reachable`), pops the physical front, then `TrimFront()`. -/
def pop_front (s : InstrusiveSortedDeque) : InstrusiveSortedDeque :=
  TrimFront ⟨s.store.tail, s.m_nMarkedAsErased⟩

/-- Embeds `pop_back()`: asserts non-empty with a live back (contract; see
`Reachable`), pops the physical back, then `TrimBack()`. -/
def pop_back (s : InstrusiveSortedDeque) : InstrusiveSortedDeque :=
  TrimBack ⟨s.store.dropLast, s.m_nMarkedAsErased⟩

/-- Embeds `clear()`: `StdDeque::clear(); m_nMarkedAsErased = 0;` -/
def clear (_s : InstrusiveSortedDeque) : InstrusiveSortedDeque := ⟨[], 0⟩

/-- Embeds `emplace_back(Args&&...)` with the constructed value given as `v`:
append physically; if the container was non-empty and
`back().GetKey() <= prevBack->GetKey()`, relocate by
`DoFindUnchecked(begin(), end() - 1, back().GetKey())` (the range excluding
the just-appended value, i.e. the original store), `emplace` the value at the
found position and `pop_back()` the appended tail copy. -/
def emplace_back (s : InstrusiveSortedDeque) (v : Value) : InstrusiveSortedDeque :=
  match s.store.getLast? with
  | none => ⟨s.store ++ [v], s.m_nMarkedAsErased⟩
  | some prevBack =>
    if v.GetKey ≤ prevBack.GetKey then
      ⟨s.store.insertIdx (DoFindUnchecked s.store v.GetKey) v, s.m_nMarkedAsErased⟩
    else ⟨s.store ++ [v], s.m_nMarkedAsErased⟩

/-- The assertions `emplace_back` makes along its execution, as a contract
predicate: the new value is live (`assert(!back.IsDeleted())`); if there was a
previous back it is live (`assert(!prevBack->IsDeleted())`); and on the
relocation branch the new key is strictly below the previous back's
(`assert(back.GetKey() < prevBack->GetKey())`) and the value found by the
search has a strictly greater key and is not the appended tail copy
(`assert((it->GetKey() > back.GetKey()) && (&*it != &back))`). -/
def emplace_back_ok (s : InstrusiveSortedDeque) (v : Value) : Bool :=
  !v.IsDeleted &&
    (match s.store.getLast? with
     | none => true
     | some prevBack =>
       !prevBack.IsDeleted &&
         (if v.GetKey ≤ prevBack.GetKey then
            decide (v.GetKey < prevBack.GetKey) &&
              (match s.store[DoFindUnchecked s.store v.GetKey]? with
               | some w => decide (w.GetKey > v.GetKey)
               | none => false)
          else true))

/-- Embeds `emplace_front(Args&&...)` with the constructed value given as `v`:
prepend physically (no relocation support). -/
def emplace_front (s : InstrusiveSortedDeque) (v : Value) : InstrusiveSortedDeque :=
  ⟨v :: s.store, s.m_nMarkedAsErased⟩

/-- The assertions `emplace_front` makes: the new front is live, and any
previous front is live with a key strictly above the new one. -/
def emplace_front_ok (s : InstrusiveSortedDeque) (v : Value) : Bool :=
  !v.IsDeleted &&
    (match s.store.head? with
     | none => true
     | some prevFront =>
       !prevFront.IsDeleted && decide (v.GetKey < prevFront.GetKey))

/-- The copy constructor
`InstrusiveSortedDeque(const InstrusiveSortedDeque<T>& other)`: delegates to
the `(cbegin(), cend())` range constructor, whose filter iterators copy
exactly the live values in order; `m_nMarkedAsErased` starts at `0`. -/
def copyConstruct (other : InstrusiveSortedDeque) : InstrusiveSortedDeque :=
  ⟨other.store.filter FilterPredicate, 0⟩

/-- Default-constructed `T`, used by `StdDeque::resize` to extend storage
during `Clone`.  The C++ default constructor's field values are
unconstrained; the container invariant guarantees no such padding value ever
survives a `Clone`, so a fixed representative is used. -/
def defaultValue : Value := ⟨0, false⟩

/-- Embeds `StdDeque::resize(n)`: truncate to, or pad with default-constructed
values up to, length `n`. -/
def resizeList (l : List Value) (n : Nat) : List Value :=
  l.take n ++ List.replicate (n - l.length) defaultValue

/-- Embeds `std::copy_if(other.begin(), other.end(), begin(), pred)` with
`pred = !r.IsDeleted()`: overwrite the destination from its start with the
live source values (`src` is already the filtered source).  The C++ has
undefined behaviour if there are more such values than destination room; the
container invariant makes the counts match exactly at the call site. -/
def copyIfInto (dst src : List Value) : List Value :=
  src.take dst.length ++ dst.drop src.length

/-- Embeds `Clone(const InstrusiveSortedDeque& other)` called on `self` (the body of
the copy-assignment `operator=`): `StdDeque::resize(other.size())`, then
`copy_if` the live values of `other` into the storage from `begin()`, then
`m_nMarkedAsErased = 0`. -/
def Clone (self other : InstrusiveSortedDeque) : InstrusiveSortedDeque :=
  ⟨copyIfInto (resizeList self.store (size other).toNat)
      (other.store.filter FilterPredicate), 0⟩

/-- Embeds `QuickKeyToIterator(thisPtr, qk)`: if `qk.is_valid()` (only `m_index ≥ 0`
is checked), form `StdDeque::begin() + m_index` and, if the value there is
not deleted, return it wrapped as a filter iterator; otherwise (invalid or
deleted) return the filtered `end()`.  When `m_index` is at or past
`capacity()`, the dereference `it->IsDeleted()` is undefined behaviour,
modelled as `none`. -/
def QuickKeyToIterator (s : InstrusiveSortedDeque) (qk : quick_key_type) :
    Option Nat :=
  if qk.is_valid then
    match s.store[qk.m_index.toNat]? with
    | some v =>
      if !v.IsDeleted then some (MakeFilteredIter s.store qk.m_index.toNat)
      else some (MakeFilteredIter s.store s.store.length)
    | none => none
  else some (MakeFilteredIter s.store s.store.length)

end InstrusiveSortedDeque

/-! ## Container invariant and reachable states -/

/-- Number of tombstones (deleted values) physically present in a store. -/
def countDeleted (l : List Value) : Nat := l.countP (fun v => v.IsDeleted)

/-- The ascending-key physical order the container maintains (strict, since
the insertion contracts exclude duplicate keys). -/
def SortedKeys (l : List Value) : Prop :=
  l.Pairwise (fun a b => a.GetKey < b.GetKey)

instance (l : List Value) : Decidable (SortedKeys l) := by
  unfold SortedKeys
  infer_instance

/-- The live-record sequence of a store, in physical order. -/
def liveSeq (l : List Value) : List Value := l.filter FilterPredicate

namespace InstrusiveSortedDeque

/-- The container invariant: `m_nMarkedAsErased` counts exactly the
physically present tombstones, the physical front and back (when present)
are live, and the store is in ascending key order. -/
def Inv (s : InstrusiveSortedDeque) : Prop :=
  s.m_nMarkedAsErased = countDeleted s.store ∧
    (∀ v, s.store.head? = some v → v.IsDeleted = false) ∧
    (∀ v, s.store.getLast? = some v → v.IsDeleted = false) ∧
    SortedKeys s.store

/-- States reachable through the public interface, with each operation's
contract (its assertions) as a premise: a freshly default-constructed
container, `emplace_back`/`emplace_front` under their asserted contracts,
`erase` by key, `erase` by quick key on an in-range index (out-of-range is
undefined behaviour), `pop_front`/`pop_back` on a non-empty container,
`clear`, copy construction, and copy assignment (`Clone`). -/
inductive Reachable : InstrusiveSortedDeque → Prop where
  | empty : Reachable ⟨[], 0⟩
  | embk (s : InstrusiveSortedDeque) (v : Value) : Reachable s →
      emplace_back_ok s v = true → Reachable (emplace_back s v)
  | emfr (s : InstrusiveSortedDeque) (v : Value) : Reachable s →
      emplace_front_ok s v = true → Reachable (emplace_front s v)
  | erk (s : InstrusiveSortedDeque) (k : Int) : Reachable s →
      Reachable (eraseKey s k).2
  | erq (s : InstrusiveSortedDeque) (qk : quick_key_type)
      (r : Bool × InstrusiveSortedDeque) : Reachable s →
      eraseQuickKey s qk = some r → Reachable r.2
  | popf (s : InstrusiveSortedDeque) : Reachable s → s.store ≠ [] →
      Reachable (pop_front s)
  | popb (s : InstrusiveSortedDeque) : Reachable s → s.store ≠ [] →
      Reachable (pop_back s)
  | clr (s : InstrusiveSortedDeque) : Reachable s → Reachable (clear s)
  | copy (other : InstrusiveSortedDeque) : Reachable other →
      Reachable (copyConstruct other)
  | assign (s other : InstrusiveSortedDeque) : Reachable s → Reachable other →
      Reachable (Clone s other)

end InstrusiveSortedDeque

/-! ## Helper lemmas about the list-level functions -/

theorem trimCount_fst_drop (l : List Value) :
    (trimCount l).1 = l.drop (trimCount l).2 := by
  induction l with
  | nil => simp [trimCount]
  | cons v rest ih =>
    by_cases hv : v.IsDeleted
    · simpa [trimCount, hv] using ih
    · simp [trimCount, hv]

theorem trimCount_countDeleted (l : List Value) :
    countDeleted l = (trimCount l).2 + countDeleted (trimCount l).1 := by
  induction l with
  | nil => simp [trimCount, countDeleted]
  | cons v rest ih =>
    by_cases hv : v.IsDeleted
    · simp only [trimCount, hv, if_true, countDeleted, List.countP_cons]
      simp only [countDeleted] at ih
      omega
    · simp [trimCount, hv, countDeleted, List.countP_cons]

theorem trimCount_head_live (l : List Value) :
    ∀ v, (trimCount l).1.head? = some v → v.IsDeleted = false := by
  induction l with
  | nil => simp [trimCount]
  | cons w rest ih =>
    by_cases hw : w.IsDeleted
    · simpa [trimCount, hw] using ih
    · intro v hv
      simp [trimCount, hw] at hv
      simp [← hv, hw]

theorem getLast?_drop_of_ne_nil {l : List Value} {n : Nat}
    (h : l.drop n ≠ []) : (l.drop n).getLast? = l.getLast? := by
  conv_rhs => rw [← List.take_append_drop n l]
  rw [List.getLast?_append]
  cases hd : (l.drop n).getLast? with
  | none => exact absurd (List.getLast?_eq_none_iff.mp hd) h
  | some v => simp [Option.or]

theorem head?_dropLast_of_ne_nil {l : List Value} (h : l.dropLast ≠ []) :
    l.dropLast.head? = l.head? := by
  cases l with
  | nil => simp at h
  | cons v rest =>
    cases rest with
    | nil => simp at h
    | cons w rest' => simp

theorem countDeleted_le_length (l : List Value) : countDeleted l ≤ l.length :=
  List.countP_le_length _

theorem length_liveSeq (l : List Value) :
    (liveSeq l).length = l.length - countDeleted l := by
  induction l with
  | nil => simp [liveSeq, countDeleted]
  | cons v rest ih =>
    have hle := countDeleted_le_length rest
    simp only [liveSeq, countDeleted] at ih hle ⊢
    by_cases hv : v.IsDeleted = true
    · simp only [List.filter_cons, List.countP_cons, FilterPredicate, hv,
        Bool.not_true, List.length_cons, if_true, Bool.false_eq_true, if_false]
      omega
    · have hv' : v.IsDeleted = false := by simpa using hv
      simp only [List.filter_cons, List.countP_cons, FilterPredicate, hv',
        Bool.not_false, List.length_cons, if_true, Bool.false_eq_true, if_false]
      omega

theorem countDeleted_liveSeq (l : List Value) : countDeleted (liveSeq l) = 0 := by
  rw [countDeleted, List.countP_eq_zero]
  intro v hv
  have := (List.mem_filter.mp hv).2
  simp only [FilterPredicate, Value.IsDeleted, Bool.not_eq_true'] at this ⊢
  simp [Value.IsDeleted, this]

theorem mem_liveSeq_live {l : List Value} {v : Value} (h : v ∈ liveSeq l) :
    v.IsDeleted = false := by
  have := (List.mem_filter.mp h).2
  simpa [FilterPredicate, Bool.not_eq_true'] using this

/-- Decomposition of `List.insertIdx` into take/cons/drop (for `i ≤ l.length`). -/
theorem insertIdx_eq_take_cons_drop (i : Nat) (a : Value) (l : List Value)
    (h : i ≤ l.length) : l.insertIdx i a = l.take i ++ a :: l.drop i := by
  induction l generalizing i with
  | nil =>
    have hi : i = 0 := Nat.le_zero.mp (by simpa using h)
    subst hi
    simp [List.insertIdx]
  | cons v rest ih =>
    cases i with
    | zero => simp [List.insertIdx]
    | succ j =>
      simp only [List.insertIdx_succ_cons, List.take_succ_cons, List.drop_succ_cons,
        List.cons_append, List.cons.injEq, true_and]
      exact ih j (by simpa using h)

namespace InstrusiveSortedDeque

theorem TrimFront_store (s : InstrusiveSortedDeque) :
    (TrimFront s).store = s.store.drop (trimCount s.store).2 :=
  trimCount_fst_drop s.store

theorem TrimFront_count (s : InstrusiveSortedDeque)
    (h : s.m_nMarkedAsErased = countDeleted s.store) :
    (TrimFront s).m_nMarkedAsErased = countDeleted (TrimFront s).store := by
  have hc := trimCount_countDeleted s.store
  show s.m_nMarkedAsErased - (trimCount s.store).2 = countDeleted (trimCount s.store).1
  omega

theorem TrimFront_head_live (s : InstrusiveSortedDeque) :
    ∀ v, (TrimFront s).store.head? = some v → v.IsDeleted = false :=
  trimCount_head_live s.store

theorem TrimFront_getLast (s : InstrusiveSortedDeque)
    (h : (TrimFront s).store ≠ []) :
    (TrimFront s).store.getLast? = s.store.getLast? := by
  rw [TrimFront_store] at h ⊢
  exact getLast?_drop_of_ne_nil h

theorem TrimFront_sorted (s : InstrusiveSortedDeque) (h : SortedKeys s.store) :
    SortedKeys (TrimFront s).store := by
  rw [TrimFront_store]
  exact List.Pairwise.sublist (List.drop_sublist _ _) h

theorem TrimBack_store (s : InstrusiveSortedDeque) :
    (TrimBack s).store = (s.store.reverse.drop (trimCount s.store.reverse).2).reverse := by
  show (trimCount s.store.reverse).1.reverse = _
  rw [trimCount_fst_drop]

theorem TrimBack_count (s : InstrusiveSortedDeque)
    (h : s.m_nMarkedAsErased = countDeleted s.store) :
    (TrimBack s).m_nMarkedAsErased = countDeleted (TrimBack s).store := by
  have hc := trimCount_countDeleted s.store.reverse
  have hrev : countDeleted s.store.reverse = countDeleted s.store :=
    List.countP_reverse _ _
  show s.m_nMarkedAsErased - (trimCount s.store.reverse).2 =
    countDeleted (trimCount s.store.reverse).1.reverse
  rw [show countDeleted (trimCount s.store.reverse).1.reverse =
      countDeleted (trimCount s.store.reverse).1 from List.countP_reverse _ _]
  omega

theorem TrimBack_getLast_live (s : InstrusiveSortedDeque) :
    ∀ v, (TrimBack s).store.getLast? = some v → v.IsDeleted = false := by
  intro v hv
  rw [show (TrimBack s).store = (trimCount s.store.reverse).1.reverse from rfl,
    List.getLast?_reverse] at hv
  exact trimCount_head_live _ v hv

theorem TrimBack_head (s : InstrusiveSortedDeque)
    (h : (TrimBack s).store ≠ []) :
    (TrimBack s).store.head? = s.store.head? := by
  rw [TrimBack_store] at h ⊢
  have hne : s.store.reverse.drop (trimCount s.store.reverse).2 ≠ [] := by
    intro hc
    exact h (by rw [hc]; rfl)
  rw [List.head?_reverse, getLast?_drop_of_ne_nil hne, List.getLast?_reverse]

theorem TrimBack_sorted (s : InstrusiveSortedDeque) (h : SortedKeys s.store) :
    SortedKeys (TrimBack s).store := by
  rw [TrimBack_store]
  refine List.Pairwise.sublist ?_ h
  have : (s.store.reverse.drop (trimCount s.store.reverse).2).reverse.Sublist
      s.store.reverse.reverse :=
    List.Sublist.reverse (List.drop_sublist _ _)
  simpa using this

end InstrusiveSortedDeque

/-! ## Sortedness helpers -/

theorem sortedKeys_getElem {l : List Value} (h : SortedKeys l) {i j : Nat}
    (hi : i < l.length) (hj : j < l.length) (hij : i < j) :
    l[i].GetKey < l[j].GetKey :=
  List.pairwise_iff_getElem.mp h i j hi hj hij

theorem sortedKeys_head_min {l : List Value} (h : SortedKeys l) {f : Value}
    (hf : l.head? = some f) : ∀ a ∈ l, f.GetKey ≤ a.GetKey := by
  intro a ha
  obtain ⟨n, hn, rfl⟩ := List.mem_iff_getElem.mp ha
  rw [List.head?_eq_getElem?] at hf
  have h0 : 0 < l.length := by omega
  have hf' : l[0] = f := by
    rw [List.getElem?_eq_getElem h0] at hf
    exact Option.some.inj hf
  rcases Nat.eq_zero_or_pos n with hn0 | hn0
  · subst hn0; rw [hf']
  · exact le_of_lt (hf' ▸ sortedKeys_getElem h h0 hn hn0)

theorem sortedKeys_getLast_max {l : List Value} (h : SortedKeys l) {b : Value}
    (hb : l.getLast? = some b) : ∀ a ∈ l, a.GetKey ≤ b.GetKey := by
  intro a ha
  obtain ⟨n, hn, rfl⟩ := List.mem_iff_getElem.mp ha
  rw [List.getLast?_eq_getElem?] at hb
  have hl : l.length - 1 < l.length := by omega
  have hb' : l[l.length - 1] = b := by
    rw [List.getElem?_eq_getElem hl] at hb
    exact Option.some.inj hb
  rcases Nat.lt_or_ge n (l.length - 1) with hlt | hge
  · exact le_of_lt (hb' ▸ sortedKeys_getElem h hn hl hlt)
  · have : n = l.length - 1 := by omega
    subst this; rw [hb']

/-! ## `DoFindUnchecked` (std::lower_bound) characterization -/

theorem DoFindUnchecked_le_length (l : List Value) (k : Int) :
    DoFindUnchecked l k ≤ l.length := by
  induction l with
  | nil => simp [DoFindUnchecked]
  | cons v rest ih =>
    by_cases hv : v.GetKey < k
    · simpa [DoFindUnchecked, hv] using ih
    · simp [DoFindUnchecked, hv]

theorem DoFindUnchecked_lt_key (l : List Value) (k : Int) :
    ∀ j (hj : j < l.length), j < DoFindUnchecked l k → l[j].GetKey < k := by
  induction l with
  | nil => simp
  | cons v rest ih =>
    intro j hj hlt
    by_cases hv : v.GetKey < k
    · rw [DoFindUnchecked, if_pos hv] at hlt
      cases j with
      | zero => simpa using hv
      | succ m =>
        have := ih m (by simpa using hj) (by omega)
        simpa using this
    · rw [DoFindUnchecked, if_neg hv] at hlt
      omega

theorem DoFindUnchecked_key_ge (l : List Value) (k : Int)
    (h : DoFindUnchecked l k < l.length) :
    k ≤ (l.get ⟨DoFindUnchecked l k, h⟩).GetKey := by
  rw [List.get_eq_getElem]
  induction l with
  | nil => simp at h
  | cons v rest ih =>
    by_cases hv : v.GetKey < k
    · have h' : DoFindUnchecked rest k < rest.length := by
        have := h
        rw [DoFindUnchecked, if_pos hv] at this
        simpa using this
      have := ih h'
      simp only [DoFindUnchecked, if_pos hv]
      simpa using this
    · simp only [DoFindUnchecked, if_neg hv]
      simpa using not_lt.mp hv

theorem DoFindUnchecked_le_of_key_ge (l : List Value) (k : Int) (j : Nat)
    (hj : j < l.length) (h : k ≤ l[j].GetKey) : DoFindUnchecked l k ≤ j := by
  induction l generalizing j with
  | nil => simp at hj
  | cons v rest ih =>
    by_cases hv : v.GetKey < k
    · cases j with
      | zero =>
        simp only [List.getElem_cons_zero] at h
        omega
      | succ m =>
        rw [DoFindUnchecked, if_pos hv]
        have := ih m (by simpa using hj) (by simpa using h)
        omega
    · rw [DoFindUnchecked, if_neg hv]
      exact Nat.zero_le _

/-! ## Filter iterator characterization -/

theorem firstLiveOffset_le_length (l : List Value) :
    firstLiveOffset l ≤ l.length := by
  induction l with
  | nil => simp [firstLiveOffset]
  | cons v rest ih =>
    by_cases hv : FilterPredicate v
    · simp [firstLiveOffset, hv]
    · simpa [firstLiveOffset, hv] using ih

theorem firstLiveOffset_live (l : List Value)
    (h : firstLiveOffset l < l.length) :
    (l.get ⟨firstLiveOffset l, h⟩).IsDeleted = false := by
  rw [List.get_eq_getElem]
  induction l with
  | nil => simp at h
  | cons v rest ih =>
    by_cases hv : FilterPredicate v
    · simp only [firstLiveOffset, hv, if_true, List.getElem_cons_zero]
      simpa [FilterPredicate, Bool.not_eq_true'] using hv
    · have h' : firstLiveOffset rest < rest.length := by
        have := h
        rw [firstLiveOffset, if_neg hv] at this
        simpa using this
      have := ih h'
      simp only [firstLiveOffset, if_neg hv]
      simpa using this

theorem MakeFilteredIter_ge (l : List Value) (i : Nat) :
    i ≤ MakeFilteredIter l i := Nat.le_add_right _ _

theorem MakeFilteredIter_le (l : List Value) (i : Nat) (hi : i ≤ l.length) :
    MakeFilteredIter l i ≤ l.length := by
  have h := firstLiveOffset_le_length (l.drop i)
  rw [List.length_drop] at h
  unfold MakeFilteredIter
  omega

theorem MakeFilteredIter_live (l : List Value) (i : Nat)
    (h : MakeFilteredIter l i < l.length) :
    (l.get ⟨MakeFilteredIter l i, h⟩).IsDeleted = false := by
  rw [List.get_eq_getElem]
  have hd : firstLiveOffset (l.drop i) < (l.drop i).length := by
    rw [List.length_drop]
    have := h
    unfold MakeFilteredIter at this
    omega
  have hlive := firstLiveOffset_live (l.drop i) hd
  rw [List.get_eq_getElem, List.getElem_drop] at hlive
  exact hlive

theorem MakeFilteredIter_length_self (l : List Value) :
    MakeFilteredIter l l.length = l.length := by
  simp [MakeFilteredIter, List.drop_length, firstLiveOffset]

/-! ## Invariant preservation for every mutating operation -/

theorem getElem_set_same_key (l : List Value) (i : Nat) (w : Value)
    (hilen : i < l.length) (hkey : w.GetKey = (l.get ⟨i, hilen⟩).GetKey)
    (j : Nat) (hj : j < (l.set i w).length) (hj2 : j < l.length) :
    ((l.set i w).get ⟨j, hj⟩).GetKey = (l.get ⟨j, hj2⟩).GetKey := by
  simp only [List.get_eq_getElem] at hkey ⊢
  by_cases hij : i = j
  · subst hij
    rw [List.getElem_set_self, hkey]
  · rw [List.getElem_set_ne hij]

theorem sortedKeys_set_same_key {l : List Value} {i : Nat} {w : Value}
    (hilen : i < l.length) (hkey : w.GetKey = (l.get ⟨i, hilen⟩).GetKey)
    (h : SortedKeys l) : SortedKeys (l.set i w) := by
  rw [SortedKeys, List.pairwise_iff_getElem] at h ⊢
  intro a b ha hb hab
  have ha2 : a < l.length := by rw [List.length_set] at ha; exact ha
  have hb2 : b < l.length := by rw [List.length_set] at hb; exact hb
  have hha := getElem_set_same_key l i w hilen hkey a ha ha2
  have hhb := getElem_set_same_key l i w hilen hkey b hb hb2
  simp only [List.get_eq_getElem] at hha hhb
  rw [hha, hhb]
  exact h a b ha2 hb2 hab

namespace InstrusiveSortedDeque

theorem TrimFront_inv_of (t : InstrusiveSortedDeque)
    (hcount : t.m_nMarkedAsErased = countDeleted t.store)
    (hlast : ∀ v, t.store.getLast? = some v → v.IsDeleted = false)
    (hsorted : SortedKeys t.store) : Inv (TrimFront t) := by
  refine ⟨TrimFront_count t hcount, TrimFront_head_live t, ?_, TrimFront_sorted t hsorted⟩
  intro v hv
  have hne : (TrimFront t).store ≠ [] := by
    intro hc
    rw [hc] at hv
    simp at hv
  rw [TrimFront_getLast t hne] at hv
  exact hlast v hv

theorem TrimBack_inv_of (t : InstrusiveSortedDeque)
    (hcount : t.m_nMarkedAsErased = countDeleted t.store)
    (hhead : ∀ v, t.store.head? = some v → v.IsDeleted = false)
    (hsorted : SortedKeys t.store) : Inv (TrimBack t) := by
  refine ⟨TrimBack_count t hcount, ?_, TrimBack_getLast_live t, TrimBack_sorted t hsorted⟩
  intro v hv
  have hne : (TrimBack t).store ≠ [] := by
    intro hc
    rw [hc] at hv
    simp at hv
  rw [TrimBack_head t hne] at hv
  exact hhead v hv

theorem eraseIter_inv (s : InstrusiveSortedDeque) (i : Nat) (h : Inv s) :
    Inv (eraseIter s i).2 := by
  obtain ⟨hcount, hhead, hlast, hsorted⟩ := h
  unfold eraseIter
  cases hv : s.store[i]? with
  | none => exact ⟨hcount, hhead, hlast, hsorted⟩
  | some v =>
    by_cases hd : v.IsDeleted = true
    · simp only [hd, if_true]
      exact ⟨hcount, hhead, hlast, hsorted⟩
    · simp only [hd, Bool.false_eq_true, if_false]
      obtain ⟨hilen, hvi⟩ := List.getElem?_eq_some.mp hv
      have hdl : v.IsDeleted = false := by simpa using hd
      have hc1 : s.m_nMarkedAsErased + 1 =
          countDeleted (s.store.set i v.Remove) := by
        have := List.countP_set (fun u => u.IsDeleted) s.store i v.Remove hilen
        rw [hvi] at this
        have hrem : v.Remove.IsDeleted = true := rfl
        simp only [hdl, hrem, Bool.false_eq_true, if_false, if_true] at this
        simp only [countDeleted] at hcount ⊢
        omega
      have hs1 : SortedKeys (s.store.set i v.Remove) := by
        refine sortedKeys_set_same_key hilen ?_ hsorted
        rw [List.get_eq_getElem, hvi]
        rfl
      apply TrimBack_inv_of
      · exact TrimFront_count ⟨s.store.set i v.Remove, s.m_nMarkedAsErased + 1⟩ hc1
      · exact TrimFront_head_live _
      · exact TrimFront_sorted _ hs1

theorem eraseKey_inv (s : InstrusiveSortedDeque) (k : Int) (h : Inv s) :
    Inv (eraseKey s k).2 := by
  unfold eraseKey
  cases DoFind s.store k with
  | none => exact h
  | some i => exact eraseIter_inv s i h

theorem eraseQuickKey_inv (s : InstrusiveSortedDeque) (qk : quick_key_type)
    (r : Bool × InstrusiveSortedDeque) (h : Inv s)
    (hr : eraseQuickKey s qk = some r) : Inv r.2 := by
  unfold eraseQuickKey at hr
  by_cases hb : 0 ≤ qk.m_index ∧ qk.m_index < (s.store.length : Int)
  · rw [if_pos hb] at hr
    have := Option.some.inj hr
    rw [← this]
    exact eraseIter_inv s qk.m_index.toNat h
  · rw [if_neg hb] at hr
    exact absurd hr (by simp)

theorem pop_front_inv (s : InstrusiveSortedDeque) (h : Inv s) :
    Inv (pop_front s) := by
  obtain ⟨hcount, hhead, hlast, hsorted⟩ := h
  apply TrimFront_inv_of
  · show s.m_nMarkedAsErased = countDeleted s.store.tail
    cases hl : s.store with
    | nil => simpa [hl, countDeleted] using hcount
    | cons v rest =>
      have hv : v.IsDeleted = false := hhead v (by rw [hl]; rfl)
      rw [hl] at hcount
      simp only [countDeleted, List.countP_cons, hv, Bool.false_eq_true,
        if_false] at hcount
      simpa [countDeleted] using hcount
  · intro v hv
    rw [List.getLast?_tail] at hv
    by_cases h1 : s.store.length = 1
    · rw [if_pos h1] at hv
      simp at hv
    · rw [if_neg h1] at hv
      exact hlast v hv
  · exact List.Pairwise.sublist (List.tail_sublist _) hsorted

theorem pop_back_inv (s : InstrusiveSortedDeque) (h : Inv s) :
    Inv (pop_back s) := by
  obtain ⟨hcount, hhead, hlast, hsorted⟩ := h
  apply TrimBack_inv_of
  · show s.m_nMarkedAsErased = countDeleted s.store.dropLast
    by_cases hl : s.store = []
    · simpa [hl, countDeleted] using hcount
    · have hv : (s.store.getLast hl).IsDeleted = false :=
        hlast _ (List.getLast?_eq_getLast s.store hl)
      have hsplit := List.dropLast_append_getLast hl
      have : countDeleted s.store =
          countDeleted s.store.dropLast := by
        conv_lhs => rw [← hsplit]
        simp [countDeleted, List.countP_append, List.countP_cons, hv]
      omega
  · intro v hv
    have hne : s.store.dropLast ≠ [] := by
      intro hc
      rw [hc] at hv
      simp at hv
    rw [head?_dropLast_of_ne_nil hne] at hv
    exact hhead v hv
  · exact List.Pairwise.sublist (List.dropLast_sublist _) hsorted

theorem clear_inv (s : InstrusiveSortedDeque) : Inv (clear s) := by
  refine ⟨rfl, ?_, ?_, List.Pairwise.nil⟩ <;> intro v hv <;> simp [clear] at hv

end InstrusiveSortedDeque

theorem length_resizeList (l : List Value) (n : Nat) :
    (InstrusiveSortedDeque.resizeList l n).length = n := by
  simp only [InstrusiveSortedDeque.resizeList, List.length_append,
    List.length_take, List.length_replicate]
  omega

theorem copyIfInto_of_length_eq (dst src : List Value)
    (h : dst.length = src.length) :
    InstrusiveSortedDeque.copyIfInto dst src = src := by
  unfold InstrusiveSortedDeque.copyIfInto
  rw [h, List.take_length, ← h, List.drop_length, List.append_nil]

namespace InstrusiveSortedDeque

theorem inv_liveSeq (l : List Value) (hs : SortedKeys l) :
    Inv ⟨liveSeq l, 0⟩ := by
  refine ⟨(countDeleted_liveSeq l).symm, ?_, ?_, ?_⟩
  · intro u hu
    exact mem_liveSeq_live (List.mem_of_mem_head? (Option.mem_def.mpr hu))
  · intro u hu
    rw [List.getLast?_eq_getElem?] at hu
    exact mem_liveSeq_live (List.getElem?_mem hu)
  · exact List.Pairwise.sublist (List.filter_sublist _) hs

theorem copyConstruct_inv (other : InstrusiveSortedDeque) (h : Inv other) :
    Inv (copyConstruct other) :=
  inv_liveSeq other.store h.2.2.2

theorem countDeleted_eq_zero_of_inv_small (s : InstrusiveSortedDeque)
    (h : Inv s) (hc : s.store.length ≤ 1) : countDeleted s.store = 0 := by
  obtain ⟨hcount, hhead, hlast, hsorted⟩ := h
  cases hl : s.store with
  | nil => simp [countDeleted]
  | cons x rest =>
    have hrest : rest = [] := by
      rw [hl] at hc
      simp only [List.length_cons] at hc
      exact List.eq_nil_of_length_eq_zero (by omega)
    subst hrest
    have hx : x.IsDeleted = false := hhead x (by rw [hl]; rfl)
    simp [countDeleted, List.countP_cons, hx]

theorem Clone_eq (self other : InstrusiveSortedDeque) (h : Inv other) :
    Clone self other = ⟨liveSeq other.store, 0⟩ := by
  have hcd := countDeleted_le_length other.store
  have hn : (size other).toNat = (liveSeq other.store).length := by
    rw [length_liveSeq]
    unfold size capacity
    by_cases hc : other.store.length ≤ 1
    · rw [if_pos hc, countDeleted_eq_zero_of_inv_small other h hc]
      omega
    · rw [if_neg hc, h.1]
      omega
  show InstrusiveSortedDeque.mk
      (copyIfInto (resizeList self.store (size other).toNat)
        (other.store.filter FilterPredicate)) 0 = _
  rw [copyIfInto_of_length_eq _ _ (by rw [length_resizeList, hn]; rfl)]
  rfl

theorem Clone_inv (self other : InstrusiveSortedDeque) (h : Inv other) :
    Inv (Clone self other) := by
  rw [Clone_eq self other h]
  exact inv_liveSeq other.store h.2.2.2

theorem emplace_front_inv (s : InstrusiveSortedDeque) (v : Value) (h : Inv s)
    (hok : emplace_front_ok s v = true) : Inv (emplace_front s v) := by
  obtain ⟨hcount, hhead, hlast, hsorted⟩ := h
  unfold emplace_front_ok at hok
  rw [Bool.and_eq_true, Bool.not_eq_true'] at hok
  obtain ⟨hv, hok⟩ := hok
  refine ⟨?_, ?_, ?_, ?_⟩
  · show s.m_nMarkedAsErased = countDeleted (v :: s.store)
    simp [countDeleted, List.countP_cons, hv, hcount]
  · intro u hu
    have hvu : v = u := by simpa [emplace_front] using hu
    rw [← hvu]; exact hv
  · intro u hu
    show u.IsDeleted = false
    cases hl : s.store with
    | nil =>
      have hvu : v = u := by
        simp only [emplace_front, hl] at hu
        simpa using hu
      rw [← hvu]; exact hv
    | cons w rest =>
      have : (v :: s.store).getLast? = s.store.getLast? := by
        rw [hl, List.getLast?_cons, List.getLast?_cons]
        cases rest.getLast? <;> simp
      simp only [emplace_front] at hu
      rw [this] at hu
      exact hlast u hu
  · show SortedKeys (v :: s.store)
    rw [SortedKeys, List.pairwise_cons]
    refine ⟨?_, hsorted⟩
    intro b hb
    cases hh : s.store.head? with
    | none =>
      rw [List.head?_eq_none_iff] at hh
      rw [hh] at hb
      simp at hb
    | some pf =>
      rw [hh] at hok
      rw [Bool.and_eq_true, Bool.not_eq_true', decide_eq_true_eq] at hok
      exact lt_of_lt_of_le hok.2 (sortedKeys_head_min hsorted hh b hb)

theorem emplace_back_inv (s : InstrusiveSortedDeque) (v : Value) (h : Inv s)
    (hok : emplace_back_ok s v = true) : Inv (emplace_back s v) := by
  obtain ⟨hcount, hhead, hlast, hsorted⟩ := h
  unfold emplace_back_ok at hok
  rw [Bool.and_eq_true, Bool.not_eq_true'] at hok
  obtain ⟨hv, hok⟩ := hok
  unfold emplace_back
  cases hl : s.store.getLast? with
  | none =>
    have hnil : s.store = [] := List.getLast?_eq_none_iff.mp hl
    rw [hnil]
    refine ⟨?_, ?_, ?_, ?_⟩
    · show s.m_nMarkedAsErased = countDeleted [v]
      rw [hnil] at hcount
      simpa [countDeleted, List.countP_cons, hv] using hcount
    · intro u hu
      have hvu : v = u := by simpa using hu
      rw [← hvu]; exact hv
    · intro u hu
      have hvu : v = u := by simpa using hu
      rw [← hvu]; exact hv
    · exact List.pairwise_cons.mpr ⟨by simp, List.Pairwise.nil⟩
  | some pb =>
    rw [hl, Bool.and_eq_true, Bool.not_eq_true'] at hok
    obtain ⟨hpb, hok⟩ := hok
    have hne : s.store ≠ [] := by
      intro hc
      rw [hc] at hl
      simp at hl
    show Inv (if v.GetKey ≤ pb.GetKey then
        ⟨List.insertIdx (DoFindUnchecked s.store v.GetKey) v s.store,
          s.m_nMarkedAsErased⟩
      else ⟨s.store ++ [v], s.m_nMarkedAsErased⟩)
    by_cases hle : v.GetKey ≤ pb.GetKey
    · -- relocation path
      rw [if_pos hle] at hok ⊢
      rw [Bool.and_eq_true, decide_eq_true_eq] at hok
      obtain ⟨hlt, hok⟩ := hok
      cases hw : s.store[DoFindUnchecked s.store v.GetKey]? with
      | none => rw [hw] at hok; exact absurd hok (by simp)
      | some w =>
        rw [hw, decide_eq_true_eq] at hok
        obtain ⟨hi, hwi⟩ := List.getElem?_eq_some.mp hw
        have hile : DoFindUnchecked s.store v.GetKey ≤ s.store.length :=
          le_of_lt hi
        rw [insertIdx_eq_take_cons_drop _ v s.store hile]
        have hvw : v.GetKey < s.store[DoFindUnchecked s.store v.GetKey].GetKey := by
          rw [hwi]; exact hok
        have hdne : s.store.drop (DoFindUnchecked s.store v.GetKey) ≠ [] := by
          intro hc
          have := congrArg List.length hc
          rw [List.length_drop] at this
          simp at this
          omega
        have hconsKey : ∀ b ∈ s.store.drop (DoFindUnchecked s.store v.GetKey),
            v.GetKey < b.GetKey := by
          intro b hb
          obtain ⟨j, hj, hbj⟩ := List.mem_iff_getElem.mp hb
          rw [List.getElem_drop] at hbj
          rcases Nat.eq_zero_or_pos j with hj0 | hj0
          · subst hj0
            rw [← hbj]
            simpa using hvw
          · have hjlen : DoFindUnchecked s.store v.GetKey + j < s.store.length := by
              rw [List.length_drop] at hj
              omega
            have := sortedKeys_getElem hsorted hi hjlen (by omega)
            rw [← hbj]
            exact lt_trans hvw this
        refine ⟨?_, ?_, ?_, ?_⟩
        · show s.m_nMarkedAsErased = countDeleted _
          have h2 : countDeleted s.store =
              countDeleted (s.store.take (DoFindUnchecked s.store v.GetKey) ++
                v :: s.store.drop (DoFindUnchecked s.store v.GetKey)) := by
            conv_lhs => rw [← List.take_append_drop
              (DoFindUnchecked s.store v.GetKey) s.store]
            simp only [countDeleted, List.countP_append, List.countP_cons, hv,
              Bool.false_eq_true, if_false]
            omega
          rw [← h2]; exact hcount
        · intro u hu
          rcases Nat.eq_zero_or_pos (DoFindUnchecked s.store v.GetKey) with h0 | h0
          · rw [h0] at hu
            simp only [List.take_zero, List.nil_append, List.head?_cons] at hu
            have hvu : v = u := by simpa using hu
            rw [← hvu]; exact hv
          · rw [List.head?_append, List.head?_take, if_neg (by omega)] at hu
            cases hf : s.store.head? with
            | none => rw [List.head?_eq_none_iff] at hf; exact absurd hf hne
            | some f =>
              rw [hf] at hu
              simp only [Option.or_some] at hu
              have hfu : f = u := by simpa using hu
              rw [← hfu]; exact hhead f hf
        · intro u hu
          have hdl : (s.store.drop (DoFindUnchecked s.store v.GetKey)).getLast? =
              some pb := by rw [getLast?_drop_of_ne_nil hdne]; exact hl
          have hcl : (v :: s.store.drop (DoFindUnchecked s.store v.GetKey)).getLast? =
              some pb := by
            rw [List.getLast?_cons, hdl]
            rfl
          rw [List.getLast?_append, hcl] at hu
          simp only [Option.or_some] at hu
          have hpu : pb = u := by simpa using hu
          rw [← hpu]; exact hpb
        · show SortedKeys _
          rw [SortedKeys, List.pairwise_append]
          refine ⟨List.Pairwise.sublist (List.take_sublist _ _) hsorted, ?_, ?_⟩
          · rw [List.pairwise_cons]
            exact ⟨hconsKey,
              List.Pairwise.sublist (List.drop_sublist _ _) hsorted⟩
          · intro a ha b hb
            obtain ⟨j, hj, haj⟩ := List.mem_iff_getElem.mp ha
            have hjtake : j < DoFindUnchecked s.store v.GetKey := by
              rw [List.length_take] at hj
              omega
            have hjlen : j < s.store.length := by
              rw [List.length_take] at hj
              omega
            have hak : a.GetKey < v.GetKey := by
              rw [← haj, List.getElem_take]
              exact DoFindUnchecked_lt_key s.store v.GetKey j hjlen hjtake
            rcases List.mem_cons.mp hb with hbv | hbd
            · rw [hbv]; exact hak
            · exact lt_trans hak (hconsKey b hbd)
    · -- fast append path
      rw [if_neg hle] at hok ⊢
      have hgt : pb.GetKey < v.GetKey := lt_of_not_le hle
      refine ⟨?_, ?_, ?_, ?_⟩
      · show s.m_nMarkedAsErased = countDeleted (s.store ++ [v])
        simp [countDeleted, List.countP_append, List.countP_cons, hv, hcount]
      · intro u hu
        rw [List.head?_append] at hu
        cases hf : s.store.head? with
        | none => rw [List.head?_eq_none_iff] at hf; exact absurd hf hne
        | some f =>
          rw [hf] at hu
          simp only [Option.or_some] at hu
          have hfu : f = u := by simpa using hu
          rw [← hfu]; exact hhead f hf
      · intro u hu
        rw [List.getLast?_concat] at hu
        have hvu : v = u := by simpa using hu
        rw [← hvu]; exact hv
      · show SortedKeys (s.store ++ [v])
        rw [SortedKeys, List.pairwise_append]
        refine ⟨hsorted, List.pairwise_singleton _ _, ?_⟩
        intro a ha b hb
        have hbv : b = v := List.mem_singleton.mp hb
        rw [hbv]
        exact lt_of_le_of_lt (sortedKeys_getLast_max hsorted hl a ha) hgt

/-- Every state reachable through the public interface satisfies the
container invariant. -/
theorem reachable_inv (s : InstrusiveSortedDeque) (h : Reachable s) : Inv s := by
  induction h with
  | empty =>
    refine ⟨by simp [countDeleted], ?_, ?_, List.Pairwise.nil⟩ <;>
      intro v hv <;> exact absurd hv (by simp)
  | embk s v _ hok ih => exact emplace_back_inv s v ih hok
  | emfr s v _ hok ih => exact emplace_front_inv s v ih hok
  | erk s k _ ih => exact eraseKey_inv s k ih
  | erq s qk r _ hr ih => exact eraseQuickKey_inv s qk r ih hr
  | popf s _ _ ih => exact pop_front_inv s ih
  | popb s _ _ ih => exact pop_back_inv s ih
  | clr s _ _ => exact clear_inv s
  | copy other _ ih => exact copyConstruct_inv other ih
  | assign s other _ _ _ ih2 => exact Clone_inv s other ih2

end InstrusiveSortedDeque

/-! ## Lookup characterization helpers -/

theorem DoFind_some {l : List Value} {k : Int} {i : Nat}
    (h : DoFind l k = some i) :
    i = DoFindUnchecked l k ∧
      ∃ hlt : i < l.length, (l.get ⟨i, hlt⟩).GetKey = k := by
  unfold DoFind at h
  split at h
  · exact absurd h (by simp)
  · split at h
    · split at h
      · split at h
        · rename_i v hget hkey
          have hi : DoFindUnchecked l k = i := Option.some.inj h
          obtain ⟨hlt, hv⟩ := List.getElem?_eq_some.mp hget
          refine ⟨hi.symm, hi ▸ hlt, ?_⟩
          rw [List.get_eq_getElem]
          simp only [← hi]
          rw [hv]
          exact hkey
        · exact absurd h (by simp)
      · exact absurd h (by simp)
    · exact absurd h (by simp)

theorem MakeFilteredIter_of_live (l : List Value) (i : Nat) (v : Value)
    (hv : l[i]? = some v) (hlive : v.IsDeleted = false) :
    MakeFilteredIter l i = i := by
  unfold MakeFilteredIter
  have hh : (l.drop i).head? = some v := by rw [List.head?_drop]; exact hv
  cases hd : l.drop i with
  | nil => rw [hd] at hh; exact absurd hh (by simp)
  | cons w rest =>
    rw [hd] at hh
    have hwv : w = v := by simpa using hh
    simp [firstLiveOffset, FilterPredicate, hwv, hlive]

namespace InstrusiveSortedDeque

theorem eraseIter_oob {s : InstrusiveSortedDeque} {i : Nat}
    (hv : s.store[i]? = none) : eraseIter s i = (false, s) := by
  unfold eraseIter
  rw [hv]

theorem eraseIter_already_deleted {s : InstrusiveSortedDeque} {i : Nat}
    {v : Value} (hv : s.store[i]? = some v) (hd : v.IsDeleted = true) :
    eraseIter s i = (false, s) := by
  unfold eraseIter
  rw [hv]
  exact if_pos hd

theorem eraseIter_mark {s : InstrusiveSortedDeque} {i : Nat} {v : Value}
    (hv : s.store[i]? = some v) (hlive : v.IsDeleted = false) :
    eraseIter s i =
      (true, TrimBack (TrimFront
        ⟨s.store.set i v.Remove, s.m_nMarkedAsErased + 1⟩)) := by
  unfold eraseIter
  rw [hv]
  exact if_neg (by simp [hlive])

theorem eraseKey_eq_of_find {s : InstrusiveSortedDeque} {k : Int} {i : Nat}
    (hf : DoFind s.store k = some i) : eraseKey s k = eraseIter s i := by
  unfold eraseKey
  rw [hf]

theorem eraseKey_eq_of_none {s : InstrusiveSortedDeque} {k : Int}
    (hf : DoFind s.store k = none) : eraseKey s k = (false, s) := by
  unfold eraseKey
  rw [hf]

theorem TrimFront_store_subset (s : InstrusiveSortedDeque) :
    ∀ v ∈ (TrimFront s).store, v ∈ s.store := by
  intro v hv
  rw [TrimFront_store] at hv
  exact (List.drop_sublist _ _).subset hv

theorem TrimBack_store_subset (s : InstrusiveSortedDeque) :
    ∀ v ∈ (TrimBack s).store, v ∈ s.store := by
  intro v hv
  rw [TrimBack_store, List.mem_reverse] at hv
  have := (List.drop_sublist _ _).subset hv
  rw [List.mem_reverse] at this
  exact this

/-- Package the decidable elementwise checks into the container invariant
(used to instantiate theorems at concrete containers). -/
theorem Inv.of_parts (s : InstrusiveSortedDeque)
    (hc : s.m_nMarkedAsErased = countDeleted s.store)
    (hh : s.store.head?.all FilterPredicate = true)
    (hl : s.store.getLast?.all FilterPredicate = true)
    (hs : SortedKeys s.store) : Inv s := by
  refine ⟨hc, ?_, ?_, hs⟩
  · intro v hv
    rw [hv] at hh
    simpa [Option.all, FilterPredicate] using hh
  · intro v hv
    rw [hv] at hl
    simpa [Option.all, FilterPredicate] using hl

/-- Running `find` on a container holding no live value with key `k` yields either
the end sentinel or a filtered iterator positioned at a live value whose key
differs from `k`. -/
theorem find_no_live_key (s : InstrusiveSortedDeque) (k : Int)
    (hnolive : ∀ v ∈ s.store, v.GetKey = k → v.IsDeleted = true) :
    find s k = s.store.length ∨
      ∃ h : find s k < s.store.length,
        (s.store.get ⟨find s k, h⟩).IsDeleted = false ∧
        (s.store.get ⟨find s k, h⟩).GetKey ≠ k := by
  unfold find
  cases hf : DoFind s.store k with
  | none => left; exact MakeFilteredIter_length_self s.store
  | some i =>
    obtain ⟨_, hlt, _⟩ := DoFind_some hf
    have hple := MakeFilteredIter_le s.store i (le_of_lt hlt)
    rcases eq_or_lt_of_le hple with he | hl2
    · left; exact he
    · right
      have hlive := MakeFilteredIter_live s.store i hl2
      rw [List.get_eq_getElem] at hlive
      refine ⟨hl2, ?_, ?_⟩
      · rw [List.get_eq_getElem]; exact hlive
      · intro hkk
        rw [List.get_eq_getElem] at hkk
        have hmem : s.store[MakeFilteredIter s.store i] ∈ s.store :=
          List.getElem_mem hl2
        have := hnolive _ hmem hkk
        rw [this] at hlive
        exact absurd hlive (by simp)

/-- After a successful `erase(k)`, every remaining value bearing key `k` is a
tombstone (by strict sortedness the erased value was the only one). -/
theorem eraseKey_no_live_key (s : InstrusiveSortedDeque) (k : Int)
    (hsorted : SortedKeys s.store) (hsucc : (eraseKey s k).1 = true) :
    ∀ w ∈ (eraseKey s k).2.store, w.GetKey = k → w.IsDeleted = true := by
  cases hf : DoFind s.store k with
  | none => rw [eraseKey_eq_of_none hf] at hsucc; exact absurd hsucc (by simp)
  | some i =>
    rw [eraseKey_eq_of_find hf] at hsucc ⊢
    obtain ⟨_, hlt, hkeyi⟩ := DoFind_some hf
    cases hv : s.store[i]? with
    | none => rw [eraseIter_oob hv] at hsucc; exact absurd hsucc (by simp)
    | some v =>
      by_cases hd : v.IsDeleted = true
      · rw [eraseIter_already_deleted hv hd] at hsucc
        exact absurd hsucc (by simp)
      · have hlive : v.IsDeleted = false := by simpa using hd
        rw [eraseIter_mark hv hlive]
        intro w hw hwk
        obtain ⟨hvlen, hvi⟩ := List.getElem?_eq_some.mp hv
        have hwmem : w ∈ s.store.set i v.Remove :=
          TrimFront_store_subset _ w (TrimBack_store_subset _ w hw)
        obtain ⟨j, hj, hwj⟩ := List.mem_iff_getElem.mp hwmem
        have hjlen : j < s.store.length := by
          rw [List.length_set] at hj
          exact hj
        by_cases hji : i = j
        · subst hji
          rw [List.getElem_set_self] at hwj
          rw [← hwj]
          rfl
        · rw [List.getElem_set_ne hji] at hwj
          have hkj : s.store[j].GetKey = k := by rw [hwj]; exact hwk
          have hki : s.store[i].GetKey = k := by
            rw [List.get_eq_getElem] at hkeyi
            exact hkeyi
          rcases Nat.lt_or_ge i j with hij | hij
          · have := sortedKeys_getElem hsorted hvlen hjlen hij
            rw [hki, hkj] at this
            exact absurd this (lt_irrefl k)
          · have hij' : j < i := by omega
            have := sortedKeys_getElem hsorted hjlen hvlen hij'
            rw [hki, hkj] at this
            exact absurd this (lt_irrefl k)

end InstrusiveSortedDeque

/-! ## Claims -/

namespace InstrusiveSortedDeque

/-- C2 (confirmed): for every non-empty container state reachable through the
public operations (insert, erase by key, erase by quick key, `pop_front`,
`pop_back`, `clear`, clone/assign), the physically first and the physically
last stored records are not deleted.  `Reachable` closes the states under
every mutating operation, so each operation restores this invariant before it
returns. -/
theorem c2_edges_live (s : InstrusiveSortedDeque) (h : Reachable s)
    (hne : s.store ≠ []) :
    ∃ f b, s.store.head? = some f ∧ s.store.getLast? = some b ∧
      f.IsDeleted = false ∧ b.IsDeleted = false := by
  obtain ⟨_, hhead, hlast, _⟩ := reachable_inv s h
  cases hf : s.store.head? with
  | none => exact absurd (List.head?_eq_none_iff.mp hf) hne
  | some f =>
    cases hb : s.store.getLast? with
    | none => exact absurd (List.getLast?_eq_none_iff.mp hb) hne
    | some b => exact ⟨f, b, rfl, rfl, hhead f hf, hlast b hb⟩

/-- Witness for C2 at a concrete reachable state. -/
theorem c2_witness :
    ∃ f b, (emplace_back ⟨[], 0⟩ ⟨1, false⟩).store.head? = some f ∧
      (emplace_back ⟨[], 0⟩ ⟨1, false⟩).store.getLast? = some b ∧
      f.IsDeleted = false ∧ b.IsDeleted = false :=
  c2_edges_live _ (Reachable.embk _ _ Reachable.empty (by decide)) (by decide)

/-- C5 (confirmed): on every reachable state, `size()` equals
`capacity() - m_nMarkedAsErased`, and the tombstone counter is zero whenever
`capacity() <= 1`. -/
theorem c5_size_invariant (s : InstrusiveSortedDeque) (h : Reachable s) :
    size s = (capacity s : Int) - (s.m_nMarkedAsErased : Int) ∧
      (capacity s ≤ 1 → s.m_nMarkedAsErased = 0) := by
  have hinv := reachable_inv s h
  have hz : capacity s ≤ 1 → s.m_nMarkedAsErased = 0 := by
    intro hc
    rw [hinv.1, countDeleted_eq_zero_of_inv_small s hinv hc]
  refine ⟨?_, hz⟩
  unfold size
  by_cases hc : capacity s ≤ 1
  · rw [if_pos hc, hz hc]
    simp
  · rw [if_neg hc]

/-- Witness for C5 at a concrete reachable state. -/
theorem c5_witness :
    size (emplace_back ⟨[], 0⟩ ⟨1, false⟩) =
        (capacity (emplace_back ⟨[], 0⟩ ⟨1, false⟩) : Int) -
          ((emplace_back ⟨[], 0⟩ ⟨1, false⟩).m_nMarkedAsErased : Int) ∧
      (capacity (emplace_back ⟨[], 0⟩ ⟨1, false⟩) ≤ 1 →
        (emplace_back ⟨[], 0⟩ ⟨1, false⟩).m_nMarkedAsErased = 0) :=
  c5_size_invariant _ (Reachable.embk _ _ Reachable.empty (by decide))

/-- C6 (confirmed): copy-constructing or copy-assigning (`Clone`) from a
source with any tombstone pattern (any state satisfying the container
invariant) yields `m_nMarkedAsErased = 0` and the same live-record sequence,
in order. -/
theorem c6_clone_roundtrip (other : InstrusiveSortedDeque) (h : Inv other) :
    ((copyConstruct other).m_nMarkedAsErased = 0 ∧
      liveSeq (copyConstruct other).store = liveSeq other.store) ∧
    ∀ self, (Clone self other).m_nMarkedAsErased = 0 ∧
      liveSeq (Clone self other).store = liveSeq other.store := by
  have hidem : liveSeq (liveSeq other.store) = liveSeq other.store := by
    apply List.filter_eq_self.mpr
    intro a ha
    have := mem_liveSeq_live ha
    simp [FilterPredicate, this]
  constructor
  · exact ⟨rfl, hidem⟩
  · intro self
    rw [Clone_eq self other h]
    exact ⟨rfl, hidem⟩

/-- Witness for C6 at a concrete source with an interior tombstone. -/
theorem c6_witness :
    (Clone ⟨[⟨9, false⟩], 0⟩
        ⟨[⟨1, false⟩, ⟨2, true⟩, ⟨3, false⟩], 1⟩).m_nMarkedAsErased = 0 ∧
      liveSeq (Clone ⟨[⟨9, false⟩], 0⟩
        ⟨[⟨1, false⟩, ⟨2, true⟩, ⟨3, false⟩], 1⟩).store =
        liveSeq [⟨1, false⟩, ⟨2, true⟩, ⟨3, false⟩] :=
  (c6_clone_roundtrip _
    (Inv.of_parts _ (by decide) (by decide) (by decide) (by decide))).2
    ⟨[⟨9, false⟩], 0⟩

/-- C8 (confirmed): `erase(k)` on a key with no live record returns `false`
and leaves the container (physical sequence, deleted flags and
`m_nMarkedAsErased`) unchanged. -/
theorem c8_erase_absent (s : InstrusiveSortedDeque) (k : Int)
    (habsent : ∀ v ∈ s.store, v.GetKey = k → v.IsDeleted = true) :
    eraseKey s k = (false, s) := by
  cases hf : DoFind s.store k with
  | none => exact eraseKey_eq_of_none hf
  | some i =>
    rw [eraseKey_eq_of_find hf]
    obtain ⟨_, hlt, hkeyi⟩ := DoFind_some hf
    have hdel := habsent _ (List.get_mem s.store i hlt) hkeyi
    refine eraseIter_already_deleted ?_ hdel
    rw [List.get_eq_getElem]
    exact List.getElem?_eq_getElem hlt

/-- Witness for C8 at a concrete container and absent key. -/
theorem c8_witness :
    eraseKey ⟨[⟨1, false⟩], 0⟩ 2 = (false, ⟨[⟨1, false⟩], 0⟩) :=
  c8_erase_absent _ 2 (by decide)

/-- C9 (confirmed): `find_front` returns the quick key at position `0` with
`is_front() = true` when the physical front's key matches (without consulting
the rest of the store — the conclusion holds for an arbitrary tail), and the
invalid quick key (`is_valid() = false`) on an empty container or when no
physical record bears the key. -/
theorem c9_find_front_cases (s : InstrusiveSortedDeque) (k : Int) :
    (s.store = [] → find_front s k = quick_key_type.invalid ∧
      (find_front s k).is_valid = false) ∧
    (∀ f rest, s.store = f :: rest → f.GetKey = k →
      find_front s k = ⟨0⟩ ∧ (find_front s k).is_front = true) ∧
    ((∀ v ∈ s.store, v.GetKey ≠ k) →
      find_front s k = quick_key_type.invalid ∧
      (find_front s k).is_valid = false) := by
  refine ⟨?_, ?_, ?_⟩
  · intro he
    have hff : find_front s k = quick_key_type.invalid := by
      unfold find_front
      rw [he]
      rfl
    exact ⟨hff, by rw [hff]; decide⟩
  · intro f rest hsf hfk
    have hff : find_front s k = ⟨0⟩ := by
      unfold find_front
      rw [hsf]
      exact if_pos hfk
    exact ⟨hff, by rw [hff]; decide⟩
  · intro habs
    have hff : find_front s k = quick_key_type.invalid := by
      unfold find_front
      cases hh : s.store.head? with
      | none => rfl
      | some f =>
        have hfk : f.GetKey ≠ k :=
          habs f (List.mem_of_mem_head? (Option.mem_def.mpr hh))
        have hdf : DoFind s.store k = none := by
          cases hdd : DoFind s.store k with
          | none => rfl
          | some i =>
            obtain ⟨_, hlt, hkey⟩ := DoFind_some hdd
            exact absurd hkey (habs _ (List.get_mem s.store i hlt))
        trans (match DoFind s.store k with
          | some i => (⟨(i : Int)⟩ : quick_key_type)
          | none => quick_key_type.invalid)
        · exact if_neg hfk
        · rw [hdf]
    exact ⟨hff, by rw [hff]; decide⟩

/-- Witness for C9: a front match (position 0, `is_front`) and an absent key
(invalid quick key) at concrete inputs. -/
theorem c9_witness :
    (find_front ⟨[⟨7, false⟩, ⟨9, false⟩], 0⟩ 7 = ⟨0⟩ ∧
      (find_front ⟨[⟨7, false⟩, ⟨9, false⟩], 0⟩ 7).is_front = true) ∧
    (find_front ⟨[⟨7, false⟩, ⟨9, false⟩], 0⟩ 8 = quick_key_type.invalid ∧
      (find_front ⟨[⟨7, false⟩, ⟨9, false⟩], 0⟩ 8).is_valid = false) :=
  ⟨(c9_find_front_cases _ 7).2.1 ⟨7, false⟩ [⟨9, false⟩] rfl rfl,
   (c9_find_front_cases _ 8).2.2 (by decide)⟩

/-- C10 (confirmed): `quick_key_type::operator<` compares the wrapped indices
in reverse (`a < b` holds exactly when `b`'s index is strictly less than
`a`'s, i.e. descending-index order), and `operator==` holds exactly when the
indices are equal. -/
theorem c10_quick_key_operators (a b : quick_key_type) :
    (a.ltOp b = true ↔ b.m_index < a.m_index) ∧
    (a.eqOp b = true ↔ a.m_index = b.m_index) := by
  constructor
  · simp [quick_key_type.ltOp]
  · simp only [quick_key_type.eqOp, decide_eq_true_eq]
    exact eq_comm

end InstrusiveSortedDeque

namespace InstrusiveSortedDeque

/-- C1 (corrected) counterexample: on `[1, 2, 3]` (all live), `erase(2)`
returns `true` and leaves the tombstone in the interior (capacity stays 3),
but `find(2)` then returns the filtered iterator at physical offset 2 (the
live record with key 3), *not* the end sentinel (offset 3): the filter
iterator construction skips the matched tombstone forward to the next live
record instead of reporting "not found". -/
theorem c1_counterexample :
    (eraseKey ⟨[⟨1, false⟩, ⟨2, false⟩, ⟨3, false⟩], 0⟩ 2).1 = true ∧
    (eraseKey ⟨[⟨1, false⟩, ⟨2, false⟩, ⟨3, false⟩], 0⟩ 2).2.store.length = 3 ∧
    find (eraseKey ⟨[⟨1, false⟩, ⟨2, false⟩, ⟨3, false⟩], 0⟩ 2).2 2 = 2 := by
  decide

/-- C1 (corrected): after a successful `erase(k)` on an invariant-satisfying
container, `find(k)` never presents a record with key `k`: it yields either
the end sentinel, or a filtered iterator positioned at a live record whose
key differs from `k` (the erased record was the only one with key `k` by
strict sortedness, and the filter iterator skips its tombstone). -/
theorem c1_erase_then_find (s : InstrusiveSortedDeque) (k : Int)
    (hinv : Inv s) (hsucc : (eraseKey s k).1 = true) :
    find (eraseKey s k).2 k = (eraseKey s k).2.store.length ∨
      ∃ h : find (eraseKey s k).2 k < (eraseKey s k).2.store.length,
        ((eraseKey s k).2.store.get ⟨find (eraseKey s k).2 k, h⟩).IsDeleted
            = false ∧
        ((eraseKey s k).2.store.get ⟨find (eraseKey s k).2 k, h⟩).GetKey ≠ k :=
  find_no_live_key _ k (eraseKey_no_live_key s k hinv.2.2.2 hsucc)

/-- Witness for the corrected C1 at a concrete erase. -/
theorem c1_witness :
    find (eraseKey ⟨[⟨1, false⟩, ⟨2, false⟩, ⟨3, false⟩], 0⟩ 2).2 2 =
        (eraseKey ⟨[⟨1, false⟩, ⟨2, false⟩, ⟨3, false⟩], 0⟩ 2).2.store.length ∨
      ∃ h : find (eraseKey ⟨[⟨1, false⟩, ⟨2, false⟩, ⟨3, false⟩], 0⟩ 2).2 2 <
          (eraseKey ⟨[⟨1, false⟩, ⟨2, false⟩, ⟨3, false⟩], 0⟩ 2).2.store.length,
        ((eraseKey ⟨[⟨1, false⟩, ⟨2, false⟩, ⟨3, false⟩], 0⟩ 2).2.store.get
            ⟨find (eraseKey ⟨[⟨1, false⟩, ⟨2, false⟩, ⟨3, false⟩], 0⟩ 2).2 2, h⟩).IsDeleted
            = false ∧
        ((eraseKey ⟨[⟨1, false⟩, ⟨2, false⟩, ⟨3, false⟩], 0⟩ 2).2.store.get
            ⟨find (eraseKey ⟨[⟨1, false⟩, ⟨2, false⟩, ⟨3, false⟩], 0⟩ 2).2 2, h⟩).GetKey
            ≠ 2 :=
  c1_erase_then_find _ 2
    (Inv.of_parts _ (by decide) (by decide) (by decide) (by decide))
    (by decide)

/-- The facts `emplace_back`'s assertions give on the relocation branch. -/
theorem emplace_back_ok_reloc {s : InstrusiveSortedDeque} {v pb : Value}
    (hl : s.store.getLast? = some pb) (hle : v.GetKey ≤ pb.GetKey)
    (hok0 : emplace_back_ok s v = true) :
    v.IsDeleted = false ∧ pb.IsDeleted = false ∧ v.GetKey < pb.GetKey ∧
      ∃ hi : DoFindUnchecked s.store v.GetKey < s.store.length,
        v.GetKey < (s.store.get ⟨DoFindUnchecked s.store v.GetKey, hi⟩).GetKey := by
  unfold emplace_back_ok at hok0
  rw [Bool.and_eq_true, Bool.not_eq_true'] at hok0
  obtain ⟨hv, hok⟩ := hok0
  cases hl2 : s.store.getLast? with
  | none => rw [hl2] at hl; exact absurd hl (by simp)
  | some pb2 =>
    have hpbe : pb2 = pb := by
      rw [hl2] at hl
      exact Option.some.inj hl
    subst hpbe
    rw [hl2, Bool.and_eq_true, Bool.not_eq_true'] at hok
    obtain ⟨hpb, hok⟩ := hok
    rw [if_pos hle, Bool.and_eq_true, decide_eq_true_eq] at hok
    obtain ⟨hlt, hok⟩ := hok
    cases hw : s.store[DoFindUnchecked s.store v.GetKey]? with
    | none => rw [hw] at hok; exact absurd hok (by simp)
    | some w =>
      rw [hw, decide_eq_true_eq] at hok
      obtain ⟨hi, hwi⟩ := List.getElem?_eq_some.mp hw
      refine ⟨hv, hpb, hlt, hi, ?_⟩
      rw [List.get_eq_getElem, hwi]
      exact hok

/-- C3 (corrected) counterexample: in the tie case
(`record.key == previousBack.key`, here key 5 appended after back key 5, both
live), `emplace_back`'s own assertion contract is violated
(`assert(back.GetKey() < prevBack->GetKey())` demands strict inequality, and
the post-search assertion demands a strictly greater key at the found
position), so the tie is a fatal contract violation rather than a handled
relocation. -/
theorem c3_counterexample :
    Value.GetKey ⟨5, false⟩ ≤ Value.GetKey ⟨5, false⟩ ∧
    Value.IsDeleted ⟨5, false⟩ = false ∧
    (⟨[⟨5, false⟩], 0⟩ : InstrusiveSortedDeque).store.getLast? =
      some ⟨5, false⟩ ∧
    emplace_back_ok ⟨[⟨5, false⟩], 0⟩ ⟨5, false⟩ = false := by
  decide

/-- C3 (corrected): when the new record's key is less than or equal to the
previous back's and the operation's assertion contract holds (which forces
the strict case — ties violate it), the record is relocated to the
lower-bound position computed over the existing records (excluding the
just-appended tail copy), the tail copy is discarded (the length grows by
exactly one), every record before the insertion point has a strictly smaller
key, the record previously at the insertion point has a strictly greater
key, and the store remains sorted. -/
theorem c3_relocation (s : InstrusiveSortedDeque) (v pb : Value)
    (hinv : Inv s) (hl : s.store.getLast? = some pb)
    (hle : v.GetKey ≤ pb.GetKey) (hok : emplace_back_ok s v = true) :
    (emplace_back s v).store =
      s.store.take (DoFindUnchecked s.store v.GetKey) ++
        v :: s.store.drop (DoFindUnchecked s.store v.GetKey) ∧
    (emplace_back s v).store.length = s.store.length + 1 ∧
    (∀ j (hj : j < s.store.length), j < DoFindUnchecked s.store v.GetKey →
      (s.store.get ⟨j, hj⟩).GetKey < v.GetKey) ∧
    (∃ hi : DoFindUnchecked s.store v.GetKey < s.store.length,
      v.GetKey < (s.store.get ⟨DoFindUnchecked s.store v.GetKey, hi⟩).GetKey) ∧
    SortedKeys (emplace_back s v).store := by
  obtain ⟨_, _, _, hi, hwk⟩ := emplace_back_ok_reloc hl hle hok
  have hstore : emplace_back s v =
      ⟨List.insertIdx (DoFindUnchecked s.store v.GetKey) v s.store,
        s.m_nMarkedAsErased⟩ := by
    unfold emplace_back
    rw [hl]
    exact if_pos hle
  refine ⟨?_, ?_, ?_, ⟨hi, hwk⟩, ?_⟩
  · rw [hstore]
    exact insertIdx_eq_take_cons_drop _ v s.store (le_of_lt hi)
  · rw [hstore]
    exact List.length_insertIdx _ _ (le_of_lt hi)
  · intro j hj hjlt
    rw [List.get_eq_getElem]
    exact DoFindUnchecked_lt_key s.store v.GetKey j hj hjlt
  · exact (emplace_back_inv s v hinv hok).2.2.2

/-- Witness for the corrected C3: inserting key 2 after back key 3 relocates
it before the 3. -/
theorem c3_witness :
    (emplace_back ⟨[⟨1, false⟩, ⟨3, false⟩], 0⟩ ⟨2, false⟩).store =
      [⟨1, false⟩, ⟨3, false⟩].take
          (DoFindUnchecked [⟨1, false⟩, ⟨3, false⟩] (Value.GetKey ⟨2, false⟩)) ++
        ⟨2, false⟩ :: [⟨1, false⟩, ⟨3, false⟩].drop
          (DoFindUnchecked [⟨1, false⟩, ⟨3, false⟩] (Value.GetKey ⟨2, false⟩)) ∧
    (emplace_back ⟨[⟨1, false⟩, ⟨3, false⟩], 0⟩ ⟨2, false⟩).store.length =
      [(⟨1, false⟩ : Value), ⟨3, false⟩].length + 1 ∧
    (∀ j (hj : j < [(⟨1, false⟩ : Value), ⟨3, false⟩].length),
      j < DoFindUnchecked [⟨1, false⟩, ⟨3, false⟩] (Value.GetKey ⟨2, false⟩) →
      ([(⟨1, false⟩ : Value), ⟨3, false⟩].get ⟨j, hj⟩).GetKey <
        Value.GetKey ⟨2, false⟩) ∧
    (∃ hi : DoFindUnchecked [⟨1, false⟩, ⟨3, false⟩] (Value.GetKey ⟨2, false⟩) <
        [(⟨1, false⟩ : Value), ⟨3, false⟩].length,
      Value.GetKey ⟨2, false⟩ <
        ([(⟨1, false⟩ : Value), ⟨3, false⟩].get
          ⟨DoFindUnchecked [⟨1, false⟩, ⟨3, false⟩] (Value.GetKey ⟨2, false⟩),
            hi⟩).GetKey) ∧
    SortedKeys (emplace_back ⟨[⟨1, false⟩, ⟨3, false⟩], 0⟩ ⟨2, false⟩).store :=
  c3_relocation ⟨[⟨1, false⟩, ⟨3, false⟩], 0⟩ ⟨2, false⟩ ⟨3, false⟩
    (Inv.of_parts _ (by decide) (by decide) (by decide) (by decide))
    rfl (by decide) (by decide)

end InstrusiveSortedDeque

namespace InstrusiveSortedDeque

/-- C4 (corrected) counterexample: converting the quick key with index 5 on a
container of capacity 1 does not yield the end sentinel — `is_valid()`
accepts any non-negative index and no upper-bound check exists, so
`begin() + 5` is dereferenced out of bounds (undefined behaviour, modelled as
`none`); the end sentinel would be `some 1`. -/
theorem c4_counterexample :
    (⟨5⟩ : quick_key_type).is_valid = true ∧
    QuickKeyToIterator ⟨[⟨1, false⟩], 0⟩ ⟨5⟩ = none ∧
    QuickKeyToIterator ⟨[⟨1, false⟩], 0⟩ ⟨5⟩ ≠
      some (⟨[⟨1, false⟩], 0⟩ : InstrusiveSortedDeque).store.length := by
  decide

/-- C4 (corrected): `QuickKeyToIterator` re-checks only the *sign* of the
index (`is_valid()`) and the deleted flag: a negative index or a deleted
target yields the end sentinel; a non-negative in-bounds index with a live
target yields the filtered iterator at that index; but a non-negative index
at or past the current physical size is *not* detected — the conversion
dereferences out of bounds (undefined behaviour, `none`) instead of yielding
the end sentinel. -/
theorem c4_qk_conversion (s : InstrusiveSortedDeque) (qk : quick_key_type) :
    (qk.is_valid = false → QuickKeyToIterator s qk = some s.store.length) ∧
    (∀ v, qk.is_valid = true → s.store[qk.m_index.toNat]? = some v →
      (v.IsDeleted = true → QuickKeyToIterator s qk = some s.store.length) ∧
      (v.IsDeleted = false →
        QuickKeyToIterator s qk = some qk.m_index.toNat)) ∧
    (qk.is_valid = true → s.store.length ≤ qk.m_index.toNat →
      QuickKeyToIterator s qk = none) := by
  refine ⟨?_, ?_, ?_⟩
  · intro hval
    unfold QuickKeyToIterator
    rw [hval]
    simp [MakeFilteredIter_length_self]
  · intro v hval hget
    have h1 : QuickKeyToIterator s qk =
        (match s.store[qk.m_index.toNat]? with
          | some v =>
            if !v.IsDeleted then
              some (MakeFilteredIter s.store qk.m_index.toNat)
            else some (MakeFilteredIter s.store s.store.length)
          | none => none) := by
      unfold QuickKeyToIterator
      exact if_pos hval
    constructor
    · intro hd
      rw [h1, hget]
      simp only [hd, Bool.not_true, Bool.false_eq_true, if_false,
        MakeFilteredIter_length_self]
    · intro hlv
      rw [h1, hget]
      simp only [hlv, Bool.not_false, if_true,
        MakeFilteredIter_of_live s.store qk.m_index.toNat v hget hlv]
  · intro hval hoob
    have h1 : QuickKeyToIterator s qk =
        (match s.store[qk.m_index.toNat]? with
          | some v =>
            if !v.IsDeleted then
              some (MakeFilteredIter s.store qk.m_index.toNat)
            else some (MakeFilteredIter s.store s.store.length)
          | none => none) := by
      unfold QuickKeyToIterator
      exact if_pos hval
    rw [h1, List.getElem?_eq_none hoob]

/-- Witness for the corrected C4: all four behaviours at concrete inputs. -/
theorem c4_witness :
    QuickKeyToIterator ⟨[⟨1, false⟩, ⟨2, true⟩, ⟨3, false⟩], 1⟩ ⟨-1⟩ =
        some 3 ∧
    QuickKeyToIterator ⟨[⟨1, false⟩, ⟨2, true⟩, ⟨3, false⟩], 1⟩ ⟨1⟩ =
        some 3 ∧
    QuickKeyToIterator ⟨[⟨1, false⟩, ⟨2, true⟩, ⟨3, false⟩], 1⟩ ⟨2⟩ =
        some 2 ∧
    QuickKeyToIterator ⟨[⟨1, false⟩, ⟨2, true⟩, ⟨3, false⟩], 1⟩ ⟨7⟩ = none :=
  ⟨(c4_qk_conversion ⟨[⟨1, false⟩, ⟨2, true⟩, ⟨3, false⟩], 1⟩ ⟨-1⟩).1
      (by decide),
   ((c4_qk_conversion ⟨[⟨1, false⟩, ⟨2, true⟩, ⟨3, false⟩], 1⟩ ⟨1⟩).2.1
      ⟨2, true⟩ (by decide) (by decide)).1 (by decide),
   ((c4_qk_conversion ⟨[⟨1, false⟩, ⟨2, true⟩, ⟨3, false⟩], 1⟩ ⟨2⟩).2.1
      ⟨3, false⟩ (by decide) (by decide)).2 (by decide),
   (c4_qk_conversion ⟨[⟨1, false⟩, ⟨2, true⟩, ⟨3, false⟩], 1⟩ ⟨7⟩).2.2
      (by decide) (by decide)⟩

/-- C7 (confirmed): `find` reports "not found" (the end sentinel) immediately
when the container is empty or the key exceeds the last physical record's
key; otherwise the lower-bound search over the entire physical store
(tombstones included) lands strictly inside the store at the first position
whose key is not less than `k` (every earlier position's key is smaller), and
`DoFind` confirms a match exactly when that position's key equals `k` (the
position is then not the end sentinel). -/
theorem c7_find_characterization (s : InstrusiveSortedDeque) (k : Int)
    (_hs : SortedKeys s.store) :
    (s.store = [] → find s k = s.store.length) ∧
    (∀ b, s.store.getLast? = some b → b.GetKey < k →
      find s k = s.store.length) ∧
    (∀ b, s.store.getLast? = some b → k ≤ b.GetKey →
      ∃ hi : DoFindUnchecked s.store k < s.store.length,
        (∀ j (hj : j < s.store.length), j < DoFindUnchecked s.store k →
          (s.store.get ⟨j, hj⟩).GetKey < k) ∧
        k ≤ (s.store.get ⟨DoFindUnchecked s.store k, hi⟩).GetKey ∧
        DoFind s.store k =
          (if (s.store.get ⟨DoFindUnchecked s.store k, hi⟩).GetKey = k
            then some (DoFindUnchecked s.store k) else none)) := by
  refine ⟨?_, ?_, ?_⟩
  · intro he
    unfold find
    have hnone : DoFind s.store k = none := by rw [he]; rfl
    rw [hnone, MakeFilteredIter_length_self]
  · intro b hb hlt
    unfold find
    have hnone : DoFind s.store k = none := by
      unfold DoFind
      rw [hb]
      exact if_neg (not_le.mpr hlt)
    rw [hnone, MakeFilteredIter_length_self]
  · intro b hb hk
    have hne : s.store ≠ [] := by
      intro hc
      rw [hc] at hb
      exact absurd hb (by simp)
    have hblen : s.store.length - 1 < s.store.length := by
      have := List.length_pos.mpr hne
      omega
    have hbe : s.store[s.store.length - 1] = b := by
      rw [List.getLast?_eq_getElem?, List.getElem?_eq_getElem hblen] at hb
      exact Option.some.inj hb
    have hi : DoFindUnchecked s.store k < s.store.length := by
      have hle := DoFindUnchecked_le_of_key_ge s.store k (s.store.length - 1)
        hblen (by rw [hbe]; exact hk)
      omega
    refine ⟨hi, ?_, ?_, ?_⟩
    · intro j hj hjlt
      rw [List.get_eq_getElem]
      exact DoFindUnchecked_lt_key s.store k j hj hjlt
    · exact DoFindUnchecked_key_ge s.store k hi
    · have hgetE : s.store[DoFindUnchecked s.store k]? =
          some (s.store.get ⟨DoFindUnchecked s.store k, hi⟩) := by
        rw [List.get_eq_getElem]
        exact List.getElem?_eq_getElem hi
      unfold DoFind
      rw [hb]
      trans (match s.store[DoFindUnchecked s.store k]? with
        | some v => if v.GetKey = k then some (DoFindUnchecked s.store k)
          else none
        | none => none)
      · exact if_pos hk
      · rw [hgetE]

/-- Witness for C7: the out-of-range guard and a confirmed in-range match at
concrete inputs. -/
theorem c7_witness :
    find ⟨[⟨1, false⟩, ⟨3, false⟩], 0⟩ 4 =
      (⟨[⟨1, false⟩, ⟨3, false⟩], 0⟩ : InstrusiveSortedDeque).store.length ∧
    DoFind [⟨1, false⟩, ⟨3, false⟩] 3 = some 1 := by
  constructor
  · exact (c7_find_characterization ⟨[⟨1, false⟩, ⟨3, false⟩], 0⟩ 4
      (by decide)).2.1 ⟨3, false⟩ rfl (by decide)
  · have h3 := (c7_find_characterization ⟨[⟨1, false⟩, ⟨3, false⟩], 0⟩ 3
      (by decide)).2.2 ⟨3, false⟩ rfl (by decide)
    obtain ⟨hi, _, _, heq⟩ := h3
    rw [heq]
    rfl

end InstrusiveSortedDeque
